import Mathlib

/-!
Verification of the annotation-synchronization core of the repository.

The development shallowly embeds, as executable Lean functions:
  - the per-edit annotation lifecycle of `src/web/src/extensions/BiasDecorations.ts`
    (position remapping, outdate-on-edit, invalidation, and the commands
    `setBiasIndicators` / `removeBiasIndicator` / `removeBiasIndicatorAtPosition`),
  - its near-duplicate `src/web/src/extensions/LexiconDecorations.ts`,
  - the pure helpers of `src/web/src/services/analysisHelpers.ts`
    (`findPhrasePositions`, `addCharacterPositions`, `limitIndicatorsByKey`).

Editor positions are modeled as `Int` (JS numbers used only integrally), document
edit mappings as arbitrary functions `Int → Int` (the interface of
ProseMirror's `Mapping.map`), and text as `List Char`.  The JS regex used by
`findPhrasePositions` is modeled over the ASCII alphabet: `\w` is
`[A-Za-z0-9_]`, the `i` flag is ASCII case folding, and `trim` removes ASCII
whitespace.  Optional JS fields are modeled by their falsy defaults where every
use in the source is a truthiness test (`displayIndex || …`, `!outdated`).
-/

set_option linter.unusedVariables false

/-- A character span `{start, end}` as stored in `character_positions` of an
indicator or lexicon term (editor coordinates, JS numbers modeled as `Int`). -/
structure Span where
  start : Int
  «end» : Int
deriving DecidableEq, Repr

/-- An editor selection `{from, to}`; `from = to` is ProseMirror's `empty`
(single cursor). -/
structure Selection where
  «from» : Int
  «to» : Int
deriving DecidableEq, Repr

/-- A bias indicator as stored in `editor.storage.biasDecorations.indicators`.
`displayIndex` is optional in TS and every source use is a truthiness test
(`ind.displayIndex || …`), so `0` plays the role of `undefined`; likewise
`outdated` is optional and `false` plays the role of `undefined`. -/
structure BiasIndicator where
  bias_indicator_key : String
  detected_phrase : String
  confidence : String
  character_positions : Span
  displayIndex : Nat
  outdated : Bool
deriving DecidableEq, Repr

instance : Inhabited BiasIndicator := ⟨⟨"", "", "", ⟨0, 0⟩, 0, false⟩⟩

/-- A lexicon term as stored in `editor.storage.lexiconDecorations.terms`
(LexiconDecorations.ts); the payload (`word`, `definition`, `usage_example`)
is opaque to the lifecycle. -/
structure LexiconTerm where
  word : String
  definition : String
  usage_example : String
  character_positions : Span
  displayIndex : Nat
  outdated : Bool
deriving DecidableEq, Repr

instance : Inhabited LexiconTerm := ⟨⟨"", "", "", ⟨0, 0⟩, 0, false⟩⟩

/-! ### BiasDecorations.ts — reconcile pipeline (lines 52-176, 270-314) -/

/-- Loop body of `mapIndicatorPositions` (BiasDecorations.ts lines 60-80): remap
one indicator through the edit mapping, rebuilding it only when a position
actually moved. -/
def mapOneIndicator (mapping : Int → Int) (indicator : BiasIndicator) : BiasIndicator :=
  let newStart := mapping indicator.character_positions.start
  let newEnd := mapping indicator.character_positions.«end»
  if newStart ≠ indicator.character_positions.start ∨ newEnd ≠ indicator.character_positions.«end» then
    { indicator with character_positions := ⟨newStart, newEnd⟩ }
  else
    indicator

/-- The `newStart !== oldStart || newEnd !== oldEnd` test that drives the
`positionsChanged` flag of `mapIndicatorPositions`. -/
def indicatorMoves (mapping : Int → Int) (indicator : BiasIndicator) : Bool :=
  mapping indicator.character_positions.start != indicator.character_positions.start ||
    mapping indicator.character_positions.«end» != indicator.character_positions.«end»

/-- `mapIndicatorPositions` (BiasDecorations.ts lines 52-86): remaps every
indicator's span through the edit mapping; the Bool is `positionsChanged`. -/
def mapIndicatorPositions (indicators : List BiasIndicator) (mapping : Int → Int) :
    List BiasIndicator × Bool :=
  (indicators.map (mapOneIndicator mapping), indicators.any (indicatorMoves mapping))

/-- The cursor-inside test of `removeEditedIndicators` (line 109):
`selection.from > start && selection.from <= end`. -/
def outdateCond (selection : Selection) (indicator : BiasIndicator) : Bool :=
  selection.«from» > indicator.character_positions.start &&
    selection.«from» ≤ indicator.character_positions.«end»

/-- Marking step applied to each indicator the cursor sits strictly inside
(lines 120-129): set `outdated := true`, leaving the rest unchanged. -/
def outdateOneIndicator (selection : Selection) (indicator : BiasIndicator) : BiasIndicator :=
  if outdateCond selection indicator then { indicator with outdated := true } else indicator

/-- `removeEditedIndicators` (BiasDecorations.ts lines 89-136): when the
selection is a single cursor (`selection.empty`, i.e. `from = to`), mark every
indicator whose span the cursor lies strictly inside as outdated; a range
selection leaves everything unchanged.  Returns the updated list, the
`changed` flag, and the `outdatedIndicators` list (pushed in descending index
order in the source, hence the `reverse`). -/
def removeEditedIndicators (indicators : List BiasIndicator) (selection : Selection) :
    List BiasIndicator × Bool × List BiasIndicator :=
  if selection.«from» = selection.«to» then
    (indicators.map (outdateOneIndicator selection),
     indicators.any (outdateCond selection),
     ((indicators.filter (outdateCond selection)).map
        (fun indicator => { indicator with outdated := true })).reverse)
  else
    (indicators, false, [])

/-- The invalidity test of `removeInvalidIndicators` (line 156):
`start >= end || start < 1 || end > docSize`. -/
def invalidCond (docSize : Int) (indicator : BiasIndicator) : Bool :=
  indicator.character_positions.start ≥ indicator.character_positions.«end» ||
    indicator.character_positions.start < 1 ||
    indicator.character_positions.«end» > docSize

/-- `removeInvalidIndicators` (BiasDecorations.ts lines 139-176): drop every
indicator whose span is degenerate or out of document bounds (the reverse-order
splice loop of the source equals a filter); the Bool is the `changed` flag. -/
def removeInvalidIndicators (indicators : List BiasIndicator) (docSize : Int) :
    List BiasIndicator × Bool :=
  (indicators.filter (fun indicator => !invalidCond docSize indicator),
   indicators.any (invalidCond docSize))

/-- The `tr.docChanged` branch of the plugin's `apply` (BiasDecorations.ts
lines 272-307): remap, outdate-on-edit, invalidate.  The Bool is
`indicatorsChanged`; exactly when it is `true` the source persists the new
list into storage and fires the `biasIndicatorsUpdated` notification
(lines 292-300), otherwise storage is left untouched. -/
def biasReconcile (indicators : List BiasIndicator) (mapping : Int → Int)
    (selection : Selection) (docSize : Int) : List BiasIndicator × Bool :=
  let mappingResult := mapIndicatorPositions indicators mapping
  let removalResult := removeEditedIndicators mappingResult.1 selection
  let invalidResult := removeInvalidIndicators removalResult.1 docSize
  (invalidResult.1, mappingResult.2 || removalResult.2.1 || invalidResult.2)

/-! ### BiasDecorations.ts — commands (lines 328-491) -/

/-- The `sortedIndicators.map` of `setBiasIndicators` (lines 345-364) with its
mutable `nextDisplayIndex` closure made an explicit accumulator: normalize the
span to 1-based editor coordinates when requested, and assign the next display
index to every indicator that does not already carry one. -/
def assignDisplayIndices (normalizeCharacterPositions : Bool) :
    List BiasIndicator → Nat → List BiasIndicator
  | [], _ => []
  | indicator :: rest, nextDisplayIndex =>
    let start := if normalizeCharacterPositions then
        (if indicator.character_positions.start = 0 then 1
         else indicator.character_positions.start + 1)
      else indicator.character_positions.start
    let endPos := if normalizeCharacterPositions then
        max (indicator.character_positions.«end» + 1) (start + 1)
      else indicator.character_positions.«end»
    if indicator.displayIndex ≠ 0 then
      { indicator with character_positions := ⟨start, endPos⟩ } ::
        assignDisplayIndices normalizeCharacterPositions rest nextDisplayIndex
    else
      { indicator with character_positions := ⟨start, endPos⟩, displayIndex := nextDisplayIndex } ::
        assignDisplayIndices normalizeCharacterPositions rest (nextDisplayIndex + 1)

/-- `setBiasIndicators` (BiasDecorations.ts lines 330-387) as a function from
the previously stored collection and the incoming indicators to the new stored
collection.  Line 332 clears the storage *before* line 339 reads it back as
`currentIndicators`, so `maxDisplayIndex` is computed over the just-cleared
(empty) list and the `stored` argument never influences the result; the sort
is the stable ascending sort by `character_positions.end` of line 334. -/
def setBiasIndicators (stored : List BiasIndicator) (indicators : List BiasIndicator)
    (normalizeCharacterPositions : Bool) : List BiasIndicator :=
  let cleared : List BiasIndicator := []
  let sortedIndicators := indicators.insertionSort
    (fun a b => a.character_positions.«end» ≤ b.character_positions.«end»)
  let currentIndicators := cleared
  let maxDisplayIndex := currentIndicators.foldl
    (fun m indicator => max m indicator.displayIndex) 0
  assignDisplayIndices normalizeCharacterPositions sortedIndicators (maxDisplayIndex + 1)

/-- `removeBiasIndicator` (BiasDecorations.ts lines 412-445): bounds-checked
removal of the indicator at `index`; out of range returns `false` and leaves
the collection unchanged. -/
def removeBiasIndicator (indicators : List BiasIndicator) (index : Int) :
    List BiasIndicator × Bool :=
  if 0 ≤ index ∧ index < indicators.length then
    (indicators.eraseIdx index.toNat, true)
  else
    (indicators, false)

/-- The containment test of `removeBiasIndicatorAtPosition` (lines 455-456):
`position >= start && position <= end` (inclusive on both ends). -/
def containsPosition (position : Int) (indicator : BiasIndicator) : Bool :=
  position ≥ indicator.character_positions.start &&
    position ≤ indicator.character_positions.«end»

/-- `removeBiasIndicatorAtPosition` (BiasDecorations.ts lines 447-488): splice
out, iterating from the end, every indicator whose span contains the position
(each splice decision is independent, so the reverse loop is this forward
recursion); the Bool is `indicatorRemoved`. -/
def removeBiasIndicatorAtPosition (indicators : List BiasIndicator) (position : Int) :
    List BiasIndicator × Bool :=
  match indicators with
  | [] => ([], false)
  | indicator :: rest =>
    let tail := removeBiasIndicatorAtPosition rest position
    if containsPosition position indicator then (tail.1, true)
    else (indicator :: tail.1, tail.2)

/-! ### LexiconDecorations.ts — reconcile pipeline (lines 52-176, 269-306)

The lexicon module is a near-verbatim duplicate of the bias module; its three
reconcile helpers are embedded separately below so that their extensional
agreement with the bias pipeline can be stated and proved. -/

/-- Loop body of `mapTermPositions` (LexiconDecorations.ts lines 60-80). -/
def mapOneTerm (mapping : Int → Int) (term : LexiconTerm) : LexiconTerm :=
  let newStart := mapping term.character_positions.start
  let newEnd := mapping term.character_positions.«end»
  if newStart ≠ term.character_positions.start ∨ newEnd ≠ term.character_positions.«end» then
    { term with character_positions := ⟨newStart, newEnd⟩ }
  else
    term

/-- The position-moved test driving `positionsChanged` in `mapTermPositions`. -/
def termMoves (mapping : Int → Int) (term : LexiconTerm) : Bool :=
  mapping term.character_positions.start != term.character_positions.start ||
    mapping term.character_positions.«end» != term.character_positions.«end»

/-- `mapTermPositions` (LexiconDecorations.ts lines 52-86). -/
def mapTermPositions (terms : List LexiconTerm) (mapping : Int → Int) :
    List LexiconTerm × Bool :=
  (terms.map (mapOneTerm mapping), terms.any (termMoves mapping))

/-- The cursor-inside test of `removeEditedTerms` (line 109). -/
def termOutdateCond (selection : Selection) (term : LexiconTerm) : Bool :=
  selection.«from» > term.character_positions.start &&
    selection.«from» ≤ term.character_positions.«end»

/-- Marking step of `removeEditedTerms` (lines 120-129). -/
def outdateOneTerm (selection : Selection) (term : LexiconTerm) : LexiconTerm :=
  if termOutdateCond selection term then { term with outdated := true } else term

/-- `removeEditedTerms` (LexiconDecorations.ts lines 89-136). -/
def removeEditedTerms (terms : List LexiconTerm) (selection : Selection) :
    List LexiconTerm × Bool × List LexiconTerm :=
  if selection.«from» = selection.«to» then
    (terms.map (outdateOneTerm selection),
     terms.any (termOutdateCond selection),
     ((terms.filter (termOutdateCond selection)).map
        (fun term => { term with outdated := true })).reverse)
  else
    (terms, false, [])

/-- The invalidity test of `removeInvalidTerms` (line 156). -/
def termInvalidCond (docSize : Int) (term : LexiconTerm) : Bool :=
  term.character_positions.start ≥ term.character_positions.«end» ||
    term.character_positions.start < 1 ||
    term.character_positions.«end» > docSize

/-- `removeInvalidTerms` (LexiconDecorations.ts lines 139-176). -/
def removeInvalidTerms (terms : List LexiconTerm) (docSize : Int) :
    List LexiconTerm × Bool :=
  (terms.filter (fun term => !termInvalidCond docSize term),
   terms.any (termInvalidCond docSize))

/-- The `tr.docChanged` branch of the lexicon plugin's `apply`
(LexiconDecorations.ts lines 270-305). -/
def lexiconReconcile (terms : List LexiconTerm) (mapping : Int → Int)
    (selection : Selection) (docSize : Int) : List LexiconTerm × Bool :=
  let mappingResult := mapTermPositions terms mapping
  let removalResult := removeEditedTerms mappingResult.1 selection
  let invalidResult := removeInvalidTerms removalResult.1 docSize
  (invalidResult.1, mappingResult.2 || removalResult.2.1 || invalidResult.2)

/-! ### analysisHelpers.ts — phrase location (lines 128-148) -/

/-- A character span in raw (0-based) text coordinates, as produced by
`findPhrasePositions`. -/
structure TextSpan where
  start : Nat
  «end» : Nat
deriving DecidableEq, Repr

/-- The JS regex class `\w` = `[A-Za-z0-9_]` (ASCII), used by the
`(?<!\w)` / `(?!\w)` word-boundary lookarounds. -/
def isWordChar (c : Char) : Bool :=
  (48 ≤ c.toNat && c.toNat ≤ 57) || (65 ≤ c.toNat && c.toNat ≤ 90) ||
    (97 ≤ c.toNat && c.toNat ≤ 122) || c.toNat == 95

/-- ASCII case folding: the canonicalization performed by the regex `i` flag,
mapping a character to the code of its lower-case form. -/
def foldCode (c : Char) : Nat :=
  if 65 ≤ c.toNat ∧ c.toNat ≤ 90 then c.toNat + 32 else c.toNat

/-- The `!phrase || phrase.trim() === ''` guard of `findPhrasePositions`
(line 130): the phrase is empty or consists of (ASCII) whitespace only. -/
def trimEmpty (phrase : List Char) : Bool :=
  phrase.all (fun c => c.toNat == 32 || (9 ≤ c.toNat && c.toNat ≤ 13))

/-- Whether the whole-word, case-insensitive regex built from the escaped
phrase matches `text` at offset `i`: the `phrase.length` characters from `i`
equal the phrase up to case folding, the character before `i` (if any) is not
a word character, and the character at the match end (if any) is not a word
character. -/
def matchesAt (text phrase : List Char) (i : Nat) : Bool :=
  ((text.drop i).take phrase.length).map foldCode == phrase.map foldCode &&
    (match i with
     | 0 => true
     | j + 1 => !isWordChar (text.getD j default)) &&
    (if i + phrase.length < text.length then
       !isWordChar (text.getD (i + phrase.length) default)
     else true)

/-- The `regex.exec` loop of `findPhrasePositions` (lines 140-146): starting
at `pos`, emit the leftmost match at or after `pos` and resume scanning at its
end.  `fuel` bounds the number of scan steps; since the phrase is non-empty at
every call site, `text.length + 1` steps always suffice (each step advances
`pos` by at least one and the loop stops once `pos + phrase.length` exceeds
`text.length`). -/
def scanFrom (text phrase : List Char) : Nat → Nat → List TextSpan
  | 0, _ => []
  | fuel + 1, pos =>
    if pos + phrase.length ≤ text.length then
      if matchesAt text phrase pos then
        ⟨pos, pos + phrase.length⟩ :: scanFrom text phrase fuel (pos + phrase.length)
      else
        scanFrom text phrase fuel (pos + 1)
    else
      []

/-- `findPhrasePositions` (analysisHelpers.ts lines 128-148): all
non-overlapping, word-bounded, case-insensitive occurrences of `phrase` in
`text`, left to right; empty or whitespace-only phrases yield no matches. -/
def findPhrasePositions (text phrase : List Char) : List TextSpan :=
  if trimEmpty phrase then [] else scanFrom text phrase (text.length + 1) 0

/-! ### analysisHelpers.ts — candidate bootstrapping and limiting (lines 44-120) -/

/-- A raw bias indicator as delivered by an analysis backend
(`RawBiasIndicator` of types.ts): category key, detected phrase, and an
optional pre-existing span. -/
structure RawBiasIndicator where
  bias_indicator_key : String
  detected_phrase : List Char
  character_positions : Option TextSpan
deriving DecidableEq, Repr

/-- A processed indicator as returned by `addCharacterPositions`: the raw
indicator with a definite span. -/
structure PositionedIndicator where
  bias_indicator_key : String
  detected_phrase : List Char
  character_positions : TextSpan
deriving DecidableEq, Repr

/-- Lookup in the `phraseOccurrenceCount` record (missing key counts as 0,
matching `phraseOccurrenceCount[phrase] || 0`). -/
def lookupCount (counts : List (List Nat × Nat)) (key : List Nat) : Nat :=
  match counts.find? (fun e => e.1 == key) with
  | some e => e.2
  | none => 0

/-- `phraseOccurrenceCount[phrase]++`. -/
def bumpCount (counts : List (List Nat × Nat)) (key : List Nat) : List (List Nat × Nat) :=
  (key, lookupCount counts key + 1) :: counts

/-- The `indicators.map` of `addCharacterPositions` (lines 85-119) with the
mutable `phraseOccurrenceCount` record threaded explicitly.  The record key is
`detected_phrase.toLowerCase()`, modeled as the case-folded code list. -/
def addCharacterPositionsAux (text : List Char) :
    List RawBiasIndicator → List (List Nat × Nat) → List PositionedIndicator
  | [], _ => []
  | indicator :: rest, counts =>
    match indicator.character_positions with
    | some pos =>
      ⟨indicator.bias_indicator_key, indicator.detected_phrase, pos⟩ ::
        addCharacterPositionsAux text rest counts
    | none =>
      let positions := findPhrasePositions text indicator.detected_phrase
      if positions.length > 0 then
        let phrase := indicator.detected_phrase.map foldCode
        let positionIndex := min (lookupCount counts phrase) (positions.length - 1)
        ⟨indicator.bias_indicator_key, indicator.detected_phrase,
            positions.getD positionIndex ⟨0, 0⟩⟩ ::
          addCharacterPositionsAux text rest (bumpCount counts phrase)
      else
        ⟨indicator.bias_indicator_key, indicator.detected_phrase,
            ⟨0, max 1 indicator.detected_phrase.length⟩⟩ ::
          addCharacterPositionsAux text rest counts

/-- `addCharacterPositions` (analysisHelpers.ts lines 81-120): give every raw
indicator a span — kept verbatim when already present, otherwise distributed
over the locator's matches by a per-phrase occurrence counter that clamps to
the last match, with fallback `{0, max(1, length)}` when there are none. -/
def addCharacterPositions (indicators : List RawBiasIndicator) (text : List Char) :
    List PositionedIndicator :=
  addCharacterPositionsAux text indicators []

/-- The `keysSet` of `limitIndicatorsByKey` (lines 57-59): the supplied keys
when non-empty, otherwise every key present in the input (set membership below
is list membership, which agrees with JS `Set.has`). -/
def effectiveKeys (indicators : List RawBiasIndicator)
    (keysToLimit : Option (List String)) : List String :=
  match keysToLimit with
  | some keys => if keys.length > 0 then keys else indicators.map (·.bias_indicator_key)
  | none => indicators.map (·.bias_indicator_key)

/-- JS object key insertion order for the `grouped` record (lines 64-69): the
distinct keys of the list in order of first appearance. -/
def keysInOrder : List RawBiasIndicator → List String
  | [] => []
  | indicator :: rest =>
    indicator.bias_indicator_key ::
      (keysInOrder rest).filter (fun k => k ≠ indicator.bias_indicator_key)

/-- `limitIndicatorsByKey` (analysisHelpers.ts lines 52-72): the limited
candidates grouped per key (keys in first-appearance order, each group cut to
its first `maxPerKey` entries) followed by all unlimited candidates. -/
def limitIndicatorsByKey (indicators : List RawBiasIndicator)
    (keysToLimit : Option (List String)) (maxPerKey : Nat) : List RawBiasIndicator :=
  let keysSet := effectiveKeys indicators keysToLimit
  let toLimit := indicators.filter (fun i => keysSet.contains i.bias_indicator_key)
  let others := indicators.filter (fun i => !keysSet.contains i.bias_indicator_key)
  ((keysInOrder toLimit).map (fun k =>
      (toLimit.filter (fun i => i.bias_indicator_key == k)).take maxPerKey)).flatten
    ++ others

/-! ### Auxiliary definitions used by the statements below -/

instance : Inhabited PositionedIndicator := ⟨⟨"", [], ⟨0, 0⟩⟩⟩

/-- The reconcile-relevant core of a bias indicator: its span and outdated
flag (the rest is opaque payload). -/
def biasCore (indicator : BiasIndicator) : Span × Bool :=
  (indicator.character_positions, indicator.outdated)

/-- The reconcile-relevant core of a lexicon term. -/
def termCore (term : LexiconTerm) : Span × Bool :=
  (term.character_positions, term.outdated)

/-- Payload-free remap step on annotation cores. -/
def coreMap (mapping : Int → Int) (c : Span × Bool) : Span × Bool :=
  (⟨mapping c.1.start, mapping c.1.«end»⟩, c.2)

/-- Payload-free position-moved test on annotation cores. -/
def coreMoves (mapping : Int → Int) (c : Span × Bool) : Bool :=
  mapping c.1.start != c.1.start || mapping c.1.«end» != c.1.«end»

/-- Payload-free cursor-inside test on annotation cores. -/
def coreOutdateCond (selection : Selection) (c : Span × Bool) : Bool :=
  selection.«from» > c.1.start && selection.«from» ≤ c.1.«end»

/-- Payload-free outdate-marking step on annotation cores. -/
def coreOutdateOne (selection : Selection) (c : Span × Bool) : Span × Bool :=
  if coreOutdateCond selection c then (c.1, true) else c

/-- Payload-free invalidity test on annotation cores. -/
def coreInvalid (docSize : Int) (c : Span × Bool) : Bool :=
  c.1.start ≥ c.1.«end» || c.1.start < 1 || c.1.«end» > docSize

/-- Number of span-less candidates with the given case-folded phrase key among
the first `j` candidates: the value of the `phraseOccurrenceCount` entry for
that key when the `j`-th candidate is processed, for phrases that have at
least one match in the text. -/
def noSpanPriorCount (indicators : List RawBiasIndicator) (j : Nat) (key : List Nat) : Nat :=
  ((indicators.take j).filter (fun r =>
      r.character_positions.isNone && r.detected_phrase.map foldCode == key)).length

/-- The payload-free reconcile pipeline on annotation cores, of which both the
bias and the lexicon reconcile are instances. -/
def coreReconcile (cores : List (Span × Bool)) (mapping : Int → Int)
    (selection : Selection) (docSize : Int) : List (Span × Bool) × Bool :=
  let mapped := cores.map (coreMap mapping)
  let step2 := if selection.«from» = selection.«to» then
      mapped.map (coreOutdateOne selection)
    else mapped
  let outFlag := if selection.«from» = selection.«to» then
      mapped.any (coreOutdateCond selection)
    else false
  (step2.filter (fun c => !coreInvalid docSize c),
   cores.any (coreMoves mapping) || outFlag || step2.any (coreInvalid docSize))

/-! ### Claim theorems -/

/-- C1: the claim says display indices are handed out monotonically across the
whole session and never reused for a different annotation, in particular not
by a later `setAnnotations` call.  The source clears the stored collection
(BiasDecorations.ts line 332) *before* reading it back to compute
`maxDisplayIndex` (lines 339-342), so the counter restarts at 1 on every call:
a first call assigns display index 1 to the annotation for "first", and a
later call assigns the same display index 1 to the distinct annotation for
"second". -/
theorem setBiasIndicators_reuses_displayIndex :
    (setBiasIndicators [] [⟨"k", "first", "", ⟨2, 5⟩, 0, false⟩] true).map
        (fun i => (i.detected_phrase, i.displayIndex)) = [("first", 1)]
    ∧ (setBiasIndicators
          (setBiasIndicators [] [⟨"k", "first", "", ⟨2, 5⟩, 0, false⟩] true)
          [⟨"k", "second", "", ⟨2, 5⟩, 0, false⟩] true).map
        (fun i => (i.detected_phrase, i.displayIndex)) = [("second", 1)] := by
  constructor <;> rfl

/-- C2 counterexample: the claimed invariant `0 ≤ start < end ≤ documentSize`
for every active annotation after *any* operation sequence fails already after
a single `setAnnotations`: the command performs no bounds check against the
document size, so for a document of size 10 a candidate with span `{0, 100}`
is stored as an active indicator with (normalized) span `{1, 101}`, whose end
exceeds the document size. -/
theorem setBiasIndicators_escapes_document_bounds :
    ¬ ∀ i ∈ setBiasIndicators [] [⟨"k", "p", "", ⟨0, 100⟩, 0, false⟩] true,
        i.outdated = true ∨
          (0 ≤ i.character_positions.start
           ∧ i.character_positions.start < i.character_positions.«end»
           ∧ i.character_positions.«end» ≤ 10) := by
  decide

/-- C2 amended: the invariant holds of the collection produced by `reconcile`
(whose invalidation step drops every annotation, active or outdated, violating
it), rather than after arbitrary operation sequences: every annotation in the
reconciled collection satisfies `0 ≤ start < end ≤ docSize` (indeed
`1 ≤ start`).  Between a `setAnnotations` and the next `reconcile` the bound
`end ≤ documentSize` can be violated, as the counterexample shows. -/
theorem biasReconcile_spans_in_bounds (indicators : List BiasIndicator)
    (mapping : Int → Int) (selection : Selection) (docSize : Int) :
    ∀ i ∈ (biasReconcile indicators mapping selection docSize).1,
      0 ≤ i.character_positions.start
      ∧ i.character_positions.start < i.character_positions.«end»
      ∧ i.character_positions.«end» ≤ docSize := by
  intro i hi
  have hmem : i ∈ List.filter (fun indicator => !invalidCond docSize indicator)
      (removeEditedIndicators (mapIndicatorPositions indicators mapping).1 selection).1 := hi
  have hvalid := (List.mem_filter.mp hmem).2
  simp only [invalidCond, Bool.not_eq_true', Bool.or_eq_false_iff, decide_eq_false_iff_not,
    not_lt, not_le] at hvalid
  omega

theorem biasReconcile_spans_in_bounds_witness :
    0 ≤ (⟨"k", "a", "", ⟨1, 3⟩, 1, false⟩ : BiasIndicator).character_positions.start
    ∧ (⟨"k", "a", "", ⟨1, 3⟩, 1, false⟩ : BiasIndicator).character_positions.start
        < (⟨"k", "a", "", ⟨1, 3⟩, 1, false⟩ : BiasIndicator).character_positions.«end»
    ∧ (⟨"k", "a", "", ⟨1, 3⟩, 1, false⟩ : BiasIndicator).character_positions.«end» ≤ 10 :=
  biasReconcile_spans_in_bounds [⟨"k", "a", "", ⟨1, 3⟩, 1, false⟩] (fun p => p) ⟨5, 6⟩ 10
    ⟨"k", "a", "", ⟨1, 3⟩, 1, false⟩ (by decide)

/-- C9: `removeAnnotation` with an out-of-range index returns failure without
modifying the collection (and, being a total function, does not throw); with a
valid index it removes exactly the annotation at that position, returning
success, and every remaining annotation is kept unchanged (in particular no
display index is renumbered). -/
theorem removeBiasIndicator_spec (indicators : List BiasIndicator) (index : Int) :
    ((index < 0 ∨ (indicators.length : Int) ≤ index) →
      removeBiasIndicator indicators index = (indicators, false))
    ∧ (0 ≤ index → index < (indicators.length : Int) →
      removeBiasIndicator indicators index
        = (indicators.take index.toNat ++ indicators.drop (index.toNat + 1), true)) := by
  constructor
  · intro h
    have hcond : ¬ (0 ≤ index ∧ index < (indicators.length : Int)) := by omega
    simp [removeBiasIndicator, hcond]
  · intro h1 h2
    simp [removeBiasIndicator, h1, h2, List.eraseIdx_eq_take_drop_succ]

theorem removeBiasIndicator_spec_witness :
    removeBiasIndicator [⟨"k", "a", "", ⟨2, 5⟩, 7, false⟩] 5
      = ([⟨"k", "a", "", ⟨2, 5⟩, 7, false⟩], false)
    ∧ removeBiasIndicator [⟨"k", "a", "", ⟨2, 5⟩, 7, false⟩] 0 = ([], true) :=
  ⟨(removeBiasIndicator_spec [⟨"k", "a", "", ⟨2, 5⟩, 7, false⟩] 5).1 (by norm_num),
   ((removeBiasIndicator_spec [⟨"k", "a", "", ⟨2, 5⟩, 7, false⟩] 0).2
      (by norm_num) (by norm_num)).trans (by rfl)⟩

/-- C8 counterexample: the claim exempts `outdated` annotations from
`removeAnnotationAtPosition`, but the source (BiasDecorations.ts lines
453-461) tests only span containment, never the status: an outdated indicator
whose span contains the position is removed and `true` is returned, where the
claim demands `(collection unchanged, false)`. -/
theorem removeBiasIndicatorAtPosition_removes_outdated :
    (⟨"k", "a", "", ⟨2, 5⟩, 1, true⟩ : BiasIndicator).outdated = true
    ∧ removeBiasIndicatorAtPosition [⟨"k", "a", "", ⟨2, 5⟩, 1, true⟩] 3 = ([], true) := by
  constructor <;> rfl

/-- C8 amended: `removeAnnotationAtPosition` removes exactly every annotation
— regardless of active or outdated status — whose span contains the position
inclusively on both ends (possibly more than one), returns `true` iff at least
one annotation was removed, and leaves the collection unchanged when it
returns `false`. -/
theorem removeBiasIndicatorAtPosition_spec (indicators : List BiasIndicator) (position : Int) :
    removeBiasIndicatorAtPosition indicators position
      = (indicators.filter (fun i => !containsPosition position i),
         indicators.any (containsPosition position))
    ∧ (indicators.any (containsPosition position) = false →
        removeBiasIndicatorAtPosition indicators position = (indicators, false)) := by
  have main : removeBiasIndicatorAtPosition indicators position
      = (indicators.filter (fun i => !containsPosition position i),
         indicators.any (containsPosition position)) := by
    induction indicators with
    | nil => rfl
    | cons head tail ih =>
      by_cases h : containsPosition position head
      · simp [removeBiasIndicatorAtPosition, h, ih]
      · simp [removeBiasIndicatorAtPosition, h, ih]
  refine ⟨main, fun hnone => ?_⟩
  rw [main, hnone]
  have : indicators.filter (fun i => !containsPosition position i) = indicators :=
    List.filter_eq_self.mpr (fun a ha => by
      simp only [List.any_eq_false] at hnone
      simpa using hnone a ha)
  rw [this]

theorem removeBiasIndicatorAtPosition_spec_witness :
    removeBiasIndicatorAtPosition [⟨"k", "a", "", ⟨2, 5⟩, 1, false⟩] 9
      = ([⟨"k", "a", "", ⟨2, 5⟩, 1, false⟩], false) :=
  (removeBiasIndicatorAtPosition_spec [⟨"k", "a", "", ⟨2, 5⟩, 1, false⟩] 9).2 (by rfl)

/-- Remapping always leaves the span at the mapped positions, whether or not
the rebuild branch was taken. -/
theorem mapOneIndicator_positions (mapping : Int → Int) (indicator : BiasIndicator) :
    (mapOneIndicator mapping indicator).character_positions
      = ⟨mapping indicator.character_positions.start,
         mapping indicator.character_positions.«end»⟩ := by
  unfold mapOneIndicator
  by_cases h : mapping indicator.character_positions.start ≠ indicator.character_positions.start
      ∨ mapping indicator.character_positions.«end» ≠ indicator.character_positions.«end»
  · simp [h]
  · push_neg at h
    simp only [h.1, h.2, not_true_eq_false, or_self, if_false]
    cases hsp : indicator.character_positions
    simp [hsp] at h ⊢

/-- Outdate-marking never changes the span. -/
theorem outdateOneIndicator_positions (selection : Selection) (indicator : BiasIndicator) :
    (outdateOneIndicator selection indicator).character_positions
      = indicator.character_positions := by
  unfold outdateOneIndicator
  by_cases h : outdateCond selection indicator <;> simp [h]

/-- When an indicator's positions are not moved by the mapping, remapping is
the identity on it. -/
theorem mapOneIndicator_of_not_moves (mapping : Int → Int) (indicator : BiasIndicator)
    (h : indicatorMoves mapping indicator = false) :
    mapOneIndicator mapping indicator = indicator := by
  unfold indicatorMoves at h
  simp only [Bool.or_eq_false_iff, bne_eq_false_iff_eq] at h
  unfold mapOneIndicator
  simp [h.1, h.2]

/-- When the cursor is not strictly inside an indicator's span, outdate-marking
is the identity on it. -/
theorem outdateOneIndicator_of_not_cond (selection : Selection) (indicator : BiasIndicator)
    (h : outdateCond selection indicator = false) :
    outdateOneIndicator selection indicator = indicator := by
  unfold outdateOneIndicator
  simp [h]

/-- A map that fixes every element of a list fixes the list. -/
theorem map_id_of_forall_eq {α : Type} {l : List α} {f : α → α}
    (h : ∀ a ∈ l, f a = a) : l.map f = l := by
  induction l with
  | nil => rfl
  | cons a l ih =>
    simp only [List.map_cons, h a (List.mem_cons_self a l)]
    rw [ih (fun b hb => h b (List.mem_cons_of_mem a hb))]

/-- The invalidity test only reads the span, so outdate-marking does not
affect it. -/
theorem invalidCond_outdateOne (docSize : Int) (selection : Selection)
    (indicator : BiasIndicator) :
    invalidCond docSize (outdateOneIndicator selection indicator)
      = invalidCond docSize indicator := by
  unfold invalidCond
  rw [outdateOneIndicator_positions]

/-- The `indicatorsChanged` flag of `biasReconcile`, computed over the input
collection: position moved, or (cursor selection and) cursor strictly inside a
remapped span, or remapped span invalid. -/
theorem biasReconcile_flag (indicators : List BiasIndicator) (mapping : Int → Int)
    (selection : Selection) (docSize : Int) :
    (biasReconcile indicators mapping selection docSize).2 =
      (indicators.any (indicatorMoves mapping)
       || (decide (selection.«from» = selection.«to»)
            && indicators.any (fun i => outdateCond selection (mapOneIndicator mapping i)))
       || indicators.any (fun i => invalidCond docSize (mapOneIndicator mapping i))) := by
  by_cases hsel : selection.«from» = selection.«to»
  · simp only [biasReconcile, mapIndicatorPositions, removeEditedIndicators,
      removeInvalidIndicators, if_pos hsel]
    rw [List.any_map, List.any_map, List.any_map]
    simp only [Function.comp_def, invalidCond_outdateOne, decide_eq_true hsel, Bool.true_and]
  · simp only [biasReconcile, mapIndicatorPositions, removeEditedIndicators,
      removeInvalidIndicators, if_neg hsel]
    rw [List.any_map]
    simp only [Function.comp_def, decide_eq_false hsel, Bool.false_and, Bool.or_false]

/-- C6 counterexample: the claim says a change notification is emitted iff one
of the three reconcile steps changed the collection.  But the outdate step
reports `changed = true` whenever the cursor sits strictly inside *any* span,
including a span already marked outdated: reconciling a collection holding one
already-outdated indicator with span `{5, 10}`, under an identity mapping and
a cursor at 7, returns the collection unchanged yet with the changed flag set,
so the notification fires although no step changed anything. -/
theorem biasReconcile_notifies_without_change :
    biasReconcile [⟨"k", "a", "", ⟨5, 10⟩, 1, true⟩] (fun p => p) ⟨7, 7⟩ 20
      = ([⟨"k", "a", "", ⟨5, 10⟩, 1, true⟩], true) := by
  rfl

/-- C6 amended: `reconcile` persists and notifies iff the mapping moved some
span, or the selection is a cursor lying strictly inside some remapped span
(`start < p ≤ end`) — regardless of whether that annotation was already
outdated —, or some remapped span is degenerate or out of bounds.  In
particular, when it does not notify the stored collection is left exactly as
it was; and when the mapping moves no span, the cursor is inside no span, and
no span is invalid, there is no notification. -/
theorem biasReconcile_changed_iff (indicators : List BiasIndicator) (mapping : Int → Int)
    (selection : Selection) (docSize : Int) :
    ((biasReconcile indicators mapping selection docSize).2 = true ↔
      ((∃ i ∈ indicators,
          mapping i.character_positions.start ≠ i.character_positions.start
          ∨ mapping i.character_positions.«end» ≠ i.character_positions.«end»)
       ∨ (selection.«from» = selection.«to» ∧ ∃ i ∈ indicators,
            mapping i.character_positions.start < selection.«from»
            ∧ selection.«from» ≤ mapping i.character_positions.«end»)
       ∨ (∃ i ∈ indicators,
            mapping i.character_positions.«end» ≤ mapping i.character_positions.start
            ∨ mapping i.character_positions.start < 1
            ∨ docSize < mapping i.character_positions.«end»)))
    ∧ ((biasReconcile indicators mapping selection docSize).2 = false →
        (biasReconcile indicators mapping selection docSize).1 = indicators) := by
  constructor
  · rw [biasReconcile_flag]
    simp only [List.any_eq_true, Bool.or_eq_true, Bool.and_eq_true, decide_eq_true_eq,
      indicatorMoves, outdateCond, invalidCond, mapOneIndicator_positions, bne_iff_ne,
      ne_eq, gt_iff_lt, ge_iff_le, List.any_eq_true, or_assoc]
  · intro h
    rw [biasReconcile_flag] at h
    simp only [Bool.or_eq_false_iff, Bool.and_eq_false_iff] at h
    obtain ⟨⟨ha, hb⟩, hc⟩ := h
    have hfix : ∀ i ∈ indicators, mapOneIndicator mapping i = i := by
      intro i hi
      exact mapOneIndicator_of_not_moves mapping i (by
        have := List.any_eq_false.mp ha i hi
        simpa using this)
    have hmapped : indicators.map (mapOneIndicator mapping) = indicators :=
      map_id_of_forall_eq hfix
    have hinv : ∀ i ∈ indicators, invalidCond docSize i = false := by
      intro i hi
      have := List.any_eq_false.mp hc i hi
      rw [hfix i hi] at this
      simpa using this
    by_cases hsel : selection.«from» = selection.«to»
    · rcases hb with hb | hb
      · simp [hsel] at hb
      have hout : ∀ i ∈ indicators, outdateCond selection i = false := by
        intro i hi
        have := List.any_eq_false.mp hb i hi
        rw [hfix i hi] at this
        simpa using this
      simp only [biasReconcile, mapIndicatorPositions, removeEditedIndicators,
        removeInvalidIndicators, if_pos hsel, hmapped]
      rw [map_id_of_forall_eq (fun i hi => outdateOneIndicator_of_not_cond selection i (hout i hi))]
      exact List.filter_eq_self.mpr (fun i hi => by simp [hinv i hi])
    · simp only [biasReconcile, mapIndicatorPositions, removeEditedIndicators,
        removeInvalidIndicators, if_neg hsel, hmapped]
      exact List.filter_eq_self.mpr (fun i hi => by simp [hinv i hi])

theorem biasReconcile_changed_iff_witness :
    (biasReconcile [⟨"k", "a", "", ⟨1, 3⟩, 1, false⟩] (fun p => p) ⟨5, 6⟩ 10).1
      = [⟨"k", "a", "", ⟨1, 3⟩, 1, false⟩] :=
  (biasReconcile_changed_iff [⟨"k", "a", "", ⟨1, 3⟩, 1, false⟩] (fun p => p) ⟨5, 6⟩ 10).2
    (by rfl)

/-- C4: during reconcile, a single-cursor selection at `p` outdates exactly the
annotations whose remapped span satisfies `start < p ≤ end`: (1) such an
active annotation is marked `outdated` and — its span being in bounds — stays
in the reconciled collection; (2) a range selection (`from ≠ to`) outdates
nothing; (3) a cursor exactly at `start` leaves the annotation unchanged. -/
theorem biasReconcile_outdate_on_cursor (indicators : List BiasIndicator)
    (mapping : Int → Int) (selection : Selection) (docSize : Int) (k : Nat) :
    (selection.«from» = selection.«to» →
      ∀ _ : k < indicators.length,
      ((mapIndicatorPositions indicators mapping).1.getD k default).outdated = false →
      ((mapIndicatorPositions indicators mapping).1.getD k default).character_positions.start
          < selection.«from» →
      selection.«from»
          ≤ ((mapIndicatorPositions indicators mapping).1.getD k default).character_positions.«end» →
      1 ≤ ((mapIndicatorPositions indicators mapping).1.getD k default).character_positions.start →
      ((mapIndicatorPositions indicators mapping).1.getD k default).character_positions.«end»
          ≤ docSize →
      { (mapIndicatorPositions indicators mapping).1.getD k default with outdated := true }
        ∈ (biasReconcile indicators mapping selection docSize).1)
    ∧ (selection.«from» ≠ selection.«to» →
      (removeEditedIndicators (mapIndicatorPositions indicators mapping).1 selection).1
        = (mapIndicatorPositions indicators mapping).1)
    ∧ (selection.«from» = selection.«to» →
      selection.«from»
          = ((mapIndicatorPositions indicators mapping).1.getD k default).character_positions.start →
      (removeEditedIndicators (mapIndicatorPositions indicators mapping).1 selection).1.getD k default
        = (mapIndicatorPositions indicators mapping).1.getD k default) := by
  refine ⟨?_, ?_, ?_⟩
  · intro hsel hk hact hlt hle hlo hhi
    have hk2 : k < (mapIndicatorPositions indicators mapping).1.length := by
      simpa [mapIndicatorPositions] using hk
    set mapped := (mapIndicatorPositions indicators mapping).1 with hmdef
    set i := mapped.getD k default with hidef
    have hig : i = mapped[k] := by
      rw [hidef, List.getD_eq_getElem mapped default hk2]
    have hcond : outdateCond selection i = true := by
      unfold outdateCond
      simp only [Bool.and_eq_true, decide_eq_true_eq, gt_iff_lt]
      exact ⟨hlt, hle⟩
    have hmark : outdateOneIndicator selection i = { i with outdated := true } := by
      unfold outdateOneIndicator
      rw [if_pos hcond]
    have hmem2 : { i with outdated := true }
        ∈ (removeEditedIndicators mapped selection).1 := by
      simp only [removeEditedIndicators, if_pos hsel]
      refine List.mem_map.mpr ⟨i, ?_, hmark⟩
      rw [hig]
      exact List.getElem_mem hk2
    have hvalid : invalidCond docSize { i with outdated := true } = false := by
      unfold invalidCond
      simp only [Bool.or_eq_false_iff, decide_eq_false_iff_not, not_le, not_lt, ge_iff_le]
      refine ⟨⟨?_, ?_⟩, ?_⟩ <;> omega
    show { i with outdated := true }
        ∈ List.filter (fun indicator => !invalidCond docSize indicator)
            (removeEditedIndicators mapped selection).1
    exact List.mem_filter.mpr ⟨hmem2, by simp [hvalid]⟩
  · intro hsel
    simp [removeEditedIndicators, hsel]
  · intro hsel hstart
    simp only [removeEditedIndicators, if_pos hsel]
    by_cases hk : k < (mapIndicatorPositions indicators mapping).1.length
    · have hk2 : k < ((mapIndicatorPositions indicators mapping).1.map
          (outdateOneIndicator selection)).length := by simpa using hk
      rw [List.getD_eq_getElem _ default hk2, List.getD_eq_getElem _ default hk]
      rw [List.getElem_map]
      apply outdateOneIndicator_of_not_cond
      unfold outdateCond
      simp only [Bool.and_eq_false_iff, decide_eq_false_iff_not, not_lt, gt_iff_lt]
      left
      rw [List.getD_eq_getElem _ default hk] at hstart
      omega
    · push_neg at hk
      rw [List.getD_eq_default _ default (by simpa using hk),
        List.getD_eq_default _ default hk]

theorem biasReconcile_outdate_on_cursor_witness :
    (⟨"k", "a", "", ⟨5, 10⟩, 1, true⟩ : BiasIndicator)
      ∈ (biasReconcile [⟨"k", "a", "", ⟨5, 10⟩, 1, false⟩] (fun p => p) ⟨7, 7⟩ 20).1 :=
  (biasReconcile_outdate_on_cursor [⟨"k", "a", "", ⟨5, 10⟩, 1, false⟩] (fun p => p)
      ⟨7, 7⟩ 20 0).1 rfl (by decide) (by decide) (by decide) (by decide) (by decide) (by decide)

/-- Remapping does not touch the outdated flag. -/
theorem mapOneIndicator_outdated (mapping : Int → Int) (indicator : BiasIndicator) :
    (mapOneIndicator mapping indicator).outdated = indicator.outdated := by
  unfold mapOneIndicator
  by_cases h : mapping indicator.character_positions.start ≠ indicator.character_positions.start
      ∨ mapping indicator.character_positions.«end» ≠ indicator.character_positions.«end» <;>
    simp [h]

/-- Term remapping always leaves the span at the mapped positions. -/
theorem mapOneTerm_positions (mapping : Int → Int) (term : LexiconTerm) :
    (mapOneTerm mapping term).character_positions
      = ⟨mapping term.character_positions.start, mapping term.character_positions.«end»⟩ := by
  unfold mapOneTerm
  by_cases h : mapping term.character_positions.start ≠ term.character_positions.start
      ∨ mapping term.character_positions.«end» ≠ term.character_positions.«end»
  · simp [h]
  · push_neg at h
    simp only [h.1, h.2, not_true_eq_false, or_self, if_false]
    cases hsp : term.character_positions
    simp [hsp] at h ⊢

/-- Term remapping does not touch the outdated flag. -/
theorem mapOneTerm_outdated (mapping : Int → Int) (term : LexiconTerm) :
    (mapOneTerm mapping term).outdated = term.outdated := by
  unfold mapOneTerm
  by_cases h : mapping term.character_positions.start ≠ term.character_positions.start
      ∨ mapping term.character_positions.«end» ≠ term.character_positions.«end» <;>
    simp [h]

/-- The bias remap step projects to the core remap step. -/
theorem biasCore_mapOne (mapping : Int → Int) (indicator : BiasIndicator) :
    biasCore (mapOneIndicator mapping indicator) = coreMap mapping (biasCore indicator) := by
  unfold biasCore coreMap
  rw [mapOneIndicator_positions, mapOneIndicator_outdated]

/-- The lexicon remap step projects to the core remap step. -/
theorem termCore_mapOne (mapping : Int → Int) (term : LexiconTerm) :
    termCore (mapOneTerm mapping term) = coreMap mapping (termCore term) := by
  unfold termCore coreMap
  rw [mapOneTerm_positions, mapOneTerm_outdated]

/-- The bias outdate step projects to the core outdate step. -/
theorem biasCore_outdateOne (selection : Selection) (indicator : BiasIndicator) :
    biasCore (outdateOneIndicator selection indicator)
      = coreOutdateOne selection (biasCore indicator) := by
  unfold outdateOneIndicator coreOutdateOne
  by_cases h : outdateCond selection indicator
  · rw [if_pos h, if_pos (show coreOutdateCond selection (biasCore indicator) = true from h)]
    rfl
  · rw [if_neg h, if_neg (show ¬ coreOutdateCond selection (biasCore indicator) = true from h)]

/-- The lexicon outdate step projects to the core outdate step. -/
theorem termCore_outdateOne (selection : Selection) (term : LexiconTerm) :
    termCore (outdateOneTerm selection term)
      = coreOutdateOne selection (termCore term) := by
  unfold outdateOneTerm coreOutdateOne
  by_cases h : termOutdateCond selection term
  · rw [if_pos h, if_pos (show coreOutdateCond selection (termCore term) = true from h)]
    rfl
  · rw [if_neg h, if_neg (show ¬ coreOutdateCond selection (termCore term) = true from h)]

/-- Mapping commutes with filtering when the predicates correspond along the
map. -/
theorem map_filter_comm {α β : Type} (f : α → β) (p : β → Bool) (q : α → Bool)
    (h : ∀ a, q a = p (f a)) (l : List α) :
    (l.filter q).map f = (l.map f).filter p := by
  induction l with
  | nil => rfl
  | cons a l ih =>
    by_cases hq : q a
    · have hp : p (f a) = true := (h a).symm.trans hq
      simp [hq, hp, ih]
    · have hp : p (f a) = false := by
        rw [← h a]
        exact Bool.not_eq_true _ ▸ (by simpa using hq)
      simp [List.filter_cons, hq, hp, ih]

/-- Two maps commute past each other when they correspond pointwise. -/
theorem map_map_comm {α β : Type} (f : α → β) (g : α → α) (g2 : β → β)
    (h : ∀ a, f (g a) = g2 (f a)) (l : List α) :
    (l.map g).map f = (l.map f).map g2 := by
  induction l with
  | nil => rfl
  | cons a l ih => simp [h, ih]

/-- `any` transports along a map when the predicates correspond. -/
theorem any_map_comm {α β : Type} (f : α → β) (p : β → Bool) (q : α → Bool)
    (h : ∀ a, q a = p (f a)) (l : List α) :
    l.any q = (l.map f).any p := by
  induction l with
  | nil => rfl
  | cons a l ih => simp [h, ih]

/-- The bias reconcile pipeline is the core pipeline on the projected
collection. -/
theorem biasReconcile_core (indicators : List BiasIndicator) (mapping : Int → Int)
    (selection : Selection) (docSize : Int) :
    (biasReconcile indicators mapping selection docSize).1.map biasCore
        = (coreReconcile (indicators.map biasCore) mapping selection docSize).1
    ∧ (biasReconcile indicators mapping selection docSize).2
        = (coreReconcile (indicators.map biasCore) mapping selection docSize).2 := by
  have hmapstage : (indicators.map (mapOneIndicator mapping)).map biasCore
      = (indicators.map biasCore).map (coreMap mapping) :=
    map_map_comm biasCore (mapOneIndicator mapping) (coreMap mapping)
      (biasCore_mapOne mapping) indicators
  by_cases hsel : selection.«from» = selection.«to»
  · have houtstage :
        ((indicators.map (mapOneIndicator mapping)).map (outdateOneIndicator selection)).map biasCore
          = ((indicators.map biasCore).map (coreMap mapping)).map (coreOutdateOne selection) := by
      rw [map_map_comm biasCore (outdateOneIndicator selection) (coreOutdateOne selection)
        (biasCore_outdateOne selection), hmapstage]
    constructor
    · simp only [biasReconcile, coreReconcile, mapIndicatorPositions, removeEditedIndicators,
        removeInvalidIndicators, if_pos hsel]
      rw [map_filter_comm biasCore (fun c => !coreInvalid docSize c)
        (fun indicator => !invalidCond docSize indicator) (fun a => rfl), houtstage]
    · simp only [biasReconcile, coreReconcile, mapIndicatorPositions, removeEditedIndicators,
        removeInvalidIndicators, if_pos hsel]
      rw [any_map_comm biasCore (coreMoves mapping) (indicatorMoves mapping)
        (fun a => rfl) indicators]
      rw [any_map_comm biasCore (coreOutdateCond selection) (outdateCond selection)
        (fun a => rfl) (indicators.map (mapOneIndicator mapping)), hmapstage]
      rw [any_map_comm biasCore (coreInvalid docSize) (invalidCond docSize)
        (fun a => rfl) ((indicators.map (mapOneIndicator mapping)).map (outdateOneIndicator selection)),
        houtstage]
  · constructor
    · simp only [biasReconcile, coreReconcile, mapIndicatorPositions, removeEditedIndicators,
        removeInvalidIndicators, if_neg hsel]
      rw [map_filter_comm biasCore (fun c => !coreInvalid docSize c)
        (fun indicator => !invalidCond docSize indicator) (fun a => rfl), hmapstage]
    · simp only [biasReconcile, coreReconcile, mapIndicatorPositions, removeEditedIndicators,
        removeInvalidIndicators, if_neg hsel]
      rw [any_map_comm biasCore (coreMoves mapping) (indicatorMoves mapping)
        (fun a => rfl) indicators]
      rw [any_map_comm biasCore (coreInvalid docSize) (invalidCond docSize)
        (fun a => rfl) (indicators.map (mapOneIndicator mapping)), hmapstage]

/-- The lexicon reconcile pipeline is the core pipeline on the projected
collection. -/
theorem lexiconReconcile_core (terms : List LexiconTerm) (mapping : Int → Int)
    (selection : Selection) (docSize : Int) :
    (lexiconReconcile terms mapping selection docSize).1.map termCore
        = (coreReconcile (terms.map termCore) mapping selection docSize).1
    ∧ (lexiconReconcile terms mapping selection docSize).2
        = (coreReconcile (terms.map termCore) mapping selection docSize).2 := by
  have hmapstage : (terms.map (mapOneTerm mapping)).map termCore
      = (terms.map termCore).map (coreMap mapping) :=
    map_map_comm termCore (mapOneTerm mapping) (coreMap mapping)
      (termCore_mapOne mapping) terms
  by_cases hsel : selection.«from» = selection.«to»
  · have houtstage :
        ((terms.map (mapOneTerm mapping)).map (outdateOneTerm selection)).map termCore
          = ((terms.map termCore).map (coreMap mapping)).map (coreOutdateOne selection) := by
      rw [map_map_comm termCore (outdateOneTerm selection) (coreOutdateOne selection)
        (termCore_outdateOne selection), hmapstage]
    constructor
    · simp only [lexiconReconcile, coreReconcile, mapTermPositions, removeEditedTerms,
        removeInvalidTerms, if_pos hsel]
      rw [map_filter_comm termCore (fun c => !coreInvalid docSize c)
        (fun term => !termInvalidCond docSize term) (fun a => rfl), houtstage]
    · simp only [lexiconReconcile, coreReconcile, mapTermPositions, removeEditedTerms,
        removeInvalidTerms, if_pos hsel]
      rw [any_map_comm termCore (coreMoves mapping) (termMoves mapping)
        (fun a => rfl) terms]
      rw [any_map_comm termCore (coreOutdateCond selection) (termOutdateCond selection)
        (fun a => rfl) (terms.map (mapOneTerm mapping)), hmapstage]
      rw [any_map_comm termCore (coreInvalid docSize) (termInvalidCond docSize)
        (fun a => rfl) ((terms.map (mapOneTerm mapping)).map (outdateOneTerm selection)),
        houtstage]
  · constructor
    · simp only [lexiconReconcile, coreReconcile, mapTermPositions, removeEditedTerms,
        removeInvalidTerms, if_neg hsel]
      rw [map_filter_comm termCore (fun c => !coreInvalid docSize c)
        (fun term => !termInvalidCond docSize term) (fun a => rfl), hmapstage]
    · simp only [lexiconReconcile, coreReconcile, mapTermPositions, removeEditedTerms,
        removeInvalidTerms, if_neg hsel]
      rw [any_map_comm termCore (coreMoves mapping) (termMoves mapping)
        (fun a => rfl) terms]
      rw [any_map_comm termCore (coreInvalid docSize) (termInvalidCond docSize)
        (fun a => rfl) (terms.map (mapOneTerm mapping)), hmapstage]

/-- C10: the bias and lexicon reconcile pipelines are extensionally equivalent:
on collections carrying the same spans and outdated flags they produce the
same resulting spans and flags and the same changed verdict, differing only in
the opaque payload they carry. -/
theorem bias_lexicon_reconcile_equiv (indicators : List BiasIndicator)
    (terms : List LexiconTerm) (mapping : Int → Int) (selection : Selection) (docSize : Int)
    (h : indicators.map biasCore = terms.map termCore) :
    (biasReconcile indicators mapping selection docSize).1.map biasCore
      = (lexiconReconcile terms mapping selection docSize).1.map termCore
    ∧ (biasReconcile indicators mapping selection docSize).2
      = (lexiconReconcile terms mapping selection docSize).2 := by
  constructor
  · rw [(biasReconcile_core indicators mapping selection docSize).1, h,
      (lexiconReconcile_core terms mapping selection docSize).1]
  · rw [(biasReconcile_core indicators mapping selection docSize).2, h,
      (lexiconReconcile_core terms mapping selection docSize).2]

theorem bias_lexicon_reconcile_equiv_witness :
    (biasReconcile [⟨"k", "a", "", ⟨5, 10⟩, 1, false⟩] (fun p => p + 1) ⟨7, 7⟩ 20).1.map biasCore
      = (lexiconReconcile [⟨"w", "d", "u", ⟨5, 10⟩, 3, false⟩] (fun p => p + 1) ⟨7, 7⟩ 20).1.map
          termCore
    ∧ (biasReconcile [⟨"k", "a", "", ⟨5, 10⟩, 1, false⟩] (fun p => p + 1) ⟨7, 7⟩ 20).2
      = (lexiconReconcile [⟨"w", "d", "u", ⟨5, 10⟩, 3, false⟩] (fun p => p + 1) ⟨7, 7⟩ 20).2 :=
  bias_lexicon_reconcile_equiv [⟨"k", "a", "", ⟨5, 10⟩, 1, false⟩]
    [⟨"w", "d", "u", ⟨5, 10⟩, 3, false⟩] (fun p => p + 1) ⟨7, 7⟩ 20 (by rfl)

/-- C3 counterexample: the claim says the output of `limitIndicatorsByKey` is a
subsequence of the input in the input's original order, but the source emits
the limited groups first (grouped by key) and only then the rest: on input
`[k1:a, k2:b, k1:c]` with all keys limited and `maxPerKey = 3` the output is
`[k1:a, k1:c, k2:b]`, which is not a subsequence of the input. -/
theorem limitIndicatorsByKey_not_order_preserving :
    ¬ (limitIndicatorsByKey
        [⟨"k1", ['a'], none⟩, ⟨"k2", ['b'], none⟩, ⟨"k1", ['c'], none⟩] none 3).Sublist
        [⟨"k1", ['a'], none⟩, ⟨"k2", ['b'], none⟩, ⟨"k1", ['c'], none⟩] := by
  decide

/-- The distinct keys in first-appearance order contain no duplicates. -/
theorem keysInOrder_nodup (l : List RawBiasIndicator) : (keysInOrder l).Nodup := by
  induction l with
  | nil => exact List.nodup_nil
  | cons a l ih =>
    refine List.Nodup.cons ?_ (ih.filter _)
    intro hmem
    have h2 := (List.mem_filter.mp hmem).2
    simp at h2

/-- Membership in the first-appearance key list is membership among the keys. -/
theorem keysInOrder_mem (l : List RawBiasIndicator) (k : String) :
    k ∈ keysInOrder l ↔ ∃ i ∈ l, i.bias_indicator_key = k := by
  induction l with
  | nil => simp [keysInOrder]
  | cons a l ih =>
    unfold keysInOrder
    constructor
    · intro hmem
      rcases List.mem_cons.mp hmem with heq | hmem2
      · exact ⟨a, List.mem_cons_self a l, heq.symm⟩
      · obtain ⟨i, hi, hik⟩ := ih.mp (List.mem_filter.mp hmem2).1
        exact ⟨i, List.mem_cons_of_mem a hi, hik⟩
    · rintro ⟨i, hi, rfl⟩
      rcases List.mem_cons.mp hi with rfl | hi2
      · exact List.mem_cons_self _ _
      · by_cases heq : i.bias_indicator_key = a.bias_indicator_key
        · rw [heq]
          exact List.mem_cons_self _ _
        · refine List.mem_cons_of_mem _ (List.mem_filter.mpr ⟨ih.mpr ⟨i, hi2, rfl⟩, ?_⟩)
          simpa using heq

/-- Flattening groups of which at most the `k`-group is non-empty yields that
group, provided the key list contains `k` exactly once. -/
theorem flatten_eq_of_mem {g : String → List RawBiasIndicator} {K : List String} {k : String}
    (hnd : K.Nodup) (hk : k ∈ K) (hg : ∀ q ∈ K, q ≠ k → g q = []) :
    (K.map g).flatten = g k := by
  induction K with
  | nil => cases hk
  | cons a K ih =>
    rcases List.mem_cons.mp hk with rfl | hk2
    · have hrest : ∀ q ∈ K, g q = [] := by
        intro q hq
        exact hg q (List.mem_cons_of_mem _ hq)
          (fun h => (List.nodup_cons.mp hnd).1 (h ▸ hq))
      simp only [List.map_cons, List.flatten_cons]
      have : (K.map g).flatten = [] := by
        rw [List.flatten_eq_nil_iff]
        intro xs hxs
        obtain ⟨q, hq, rfl⟩ := List.mem_map.mp hxs
        exact hrest q hq
      rw [this, List.append_nil]
    · have ha : g a = [] := hg a (List.mem_cons_self a K)
        (fun h => (List.nodup_cons.mp hnd).1 (h ▸ hk2))
      simp only [List.map_cons, List.flatten_cons, ha, List.nil_append]
      exact ih (List.nodup_cons.mp hnd).2 hk2
        (fun q hq => hg q (List.mem_cons_of_mem a hq))

/-- Flattening all-empty groups yields the empty list. -/
theorem flatten_eq_nil {g : String → List RawBiasIndicator} {K : List String}
    (hg : ∀ q ∈ K, g q = []) : (K.map g).flatten = [] := by
  rw [List.flatten_eq_nil_iff]
  intro xs hxs
  obtain ⟨q, hq, rfl⟩ := List.mem_map.mp hxs
  exact hg q hq

/-- `List.contains` agrees with membership for strings. -/
theorem contains_iff_mem (l : List String) (a : String) : l.contains a = true ↔ a ∈ l := by
  simp [List.contains_iff_exists_mem_beq]

/-- Filtering distributes over flattening. -/
theorem flatten_filter {α : Type} (L : List (List α)) (p : α → Bool) :
    L.flatten.filter p = (L.map (fun l => l.filter p)).flatten := by
  induction L with
  | nil => rfl
  | cons l L ih => simp [List.filter_append, ih]

/-- C3 amended: `limitIndicatorsByKey` is not order-preserving across
categories (see counterexample): it emits the limited candidates first,
grouped by key in first-appearance order, followed by the unlimited ones.  It
is correct per category: every limited category keeps exactly its first
`maxPerKey` candidates in input order, every unlimited category passes through
unmodified and in full, and with `keysToLimit` empty or undefined every key
present in the input is limited (`maxPerKey = 0` hence drops all candidates of
limited categories). -/
theorem limitIndicatorsByKey_per_key (indicators : List RawBiasIndicator)
    (keysToLimit : Option (List String)) (maxPerKey : Nat) :
    (∀ k ∈ effectiveKeys indicators keysToLimit,
      (limitIndicatorsByKey indicators keysToLimit maxPerKey).filter
          (fun i => i.bias_indicator_key == k)
        = (indicators.filter (fun i => i.bias_indicator_key == k)).take maxPerKey)
    ∧ (∀ k, k ∉ effectiveKeys indicators keysToLimit →
      (limitIndicatorsByKey indicators keysToLimit maxPerKey).filter
          (fun i => i.bias_indicator_key == k)
        = indicators.filter (fun i => i.bias_indicator_key == k))
    ∧ ((keysToLimit = none ∨ keysToLimit = some []) →
      ∀ i ∈ indicators, i.bias_indicator_key ∈ effectiveKeys indicators keysToLimit) := by
  set ks := effectiveKeys indicators keysToLimit with hks
  set toLimit := indicators.filter (fun i => ks.contains i.bias_indicator_key) with htl
  set others := indicators.filter (fun i => !ks.contains i.bias_indicator_key) with hot
  set K := keysInOrder toLimit with hK
  set g := fun k => (toLimit.filter (fun i => i.bias_indicator_key == k)).take maxPerKey with hg
  have hres : limitIndicatorsByKey indicators keysToLimit maxPerKey
      = (K.map g).flatten ++ others := rfl
  have hmemg : ∀ k x, x ∈ g k → x.bias_indicator_key = k := by
    intro k x hx
    have h1 := (List.mem_filter.mp (List.mem_of_mem_take hx)).2
    simpa using h1
  have hgfilter_eq : ∀ k, (g k).filter (fun i => i.bias_indicator_key == k) = g k := by
    intro k
    refine List.filter_eq_self.mpr (fun x hx => ?_)
    simp [hmemg k x hx]
  have hgfilter_ne : ∀ k q, q ≠ k →
      (g q).filter (fun i => i.bias_indicator_key == k) = [] := by
    intro k q hqk
    refine List.filter_eq_nil_iff.mpr (fun x hx => ?_)
    rw [hmemg q x hx]
    simpa using hqk
  have hKks : ∀ q ∈ K, q ∈ ks := by
    intro q hq
    obtain ⟨i, hi, hik⟩ := (keysInOrder_mem toLimit q).mp hq
    have h2 := (List.mem_filter.mp hi).2
    rw [hik] at h2
    exact (contains_iff_mem ks q).mp h2
  refine ⟨?_, ?_, ?_⟩
  · intro k hk
    rw [hres, List.filter_append, flatten_filter, List.map_map]
    have hothers0 : others.filter (fun i => i.bias_indicator_key == k) = [] := by
      refine List.filter_eq_nil_iff.mpr (fun x hx => ?_)
      have h1 := (List.mem_filter.mp hx).2
      intro hpx
      have hxk : x.bias_indicator_key = k := by simpa using hpx
      rw [hxk] at h1
      rw [(contains_iff_mem ks k).mpr hk] at h1
      simp at h1
    rw [hothers0, List.append_nil]
    by_cases hkK : k ∈ K
    · have hflat : (K.map ((fun l => l.filter (fun i => i.bias_indicator_key == k)) ∘ g)).flatten
          = (g k).filter (fun i => i.bias_indicator_key == k) :=
        flatten_eq_of_mem (keysInOrder_nodup toLimit) hkK
          (fun q hq hne => hgfilter_ne k q hne)
      rw [hflat, hgfilter_eq]
      simp only [hg, htl, List.filter_filter]
      congr 1
      refine List.filter_congr (fun x hx => ?_)
      by_cases hxk : x.bias_indicator_key = k
      · rw [hxk]
        simp [hk]
      · simp [hxk]
    · have hflat : (K.map ((fun l => l.filter (fun i => i.bias_indicator_key == k)) ∘ g)).flatten
          = [] :=
        flatten_eq_nil (fun q hq => hgfilter_ne k q (fun h => hkK (h ▸ hq)))
      rw [hflat]
      have hnone : indicators.filter (fun i => i.bias_indicator_key == k) = [] := by
        refine List.filter_eq_nil_iff.mpr (fun x hx => ?_)
        intro hpx
        have hxk : x.bias_indicator_key = k := by simpa using hpx
        have hxtl : x ∈ toLimit := by
          rw [htl]
          refine List.mem_filter.mpr ⟨hx, ?_⟩
          rw [hxk]
          exact List.elem_eq_true_of_mem hk
        exact hkK ((keysInOrder_mem toLimit k).mpr ⟨x, hxtl, hxk⟩)
      rw [hnone]
      simp
  · intro k hk
    rw [hres, List.filter_append, flatten_filter, List.map_map]
    have hflat : (K.map ((fun l => l.filter (fun i => i.bias_indicator_key == k)) ∘ g)).flatten
        = [] :=
      flatten_eq_nil (fun q hq => hgfilter_ne k q (fun h => hk (h ▸ hKks q hq)))
    rw [hflat, List.nil_append]
    simp only [hot, List.filter_filter]
    refine List.filter_congr (fun x hx => ?_)
    by_cases hxk : x.bias_indicator_key = k
    · rw [hxk]
      simp [hk]
    · simp [hxk]
  · intro hor i hi
    rcases hor with rfl | rfl
    · rw [hks]
      exact List.mem_map.mpr ⟨i, hi, rfl⟩
    · rw [hks]
      simpa [effectiveKeys] using List.mem_map.mpr ⟨i, hi, rfl⟩

theorem limitIndicatorsByKey_per_key_witness :
    (limitIndicatorsByKey
        [⟨"k1", ['a'], none⟩, ⟨"k2", ['b'], none⟩, ⟨"k1", ['c'], none⟩] (some ["k1"]) 1).filter
        (fun i => i.bias_indicator_key == "k1")
      = [⟨"k1", ['a'], none⟩]
    ∧ (limitIndicatorsByKey
        [⟨"k1", ['a'], none⟩, ⟨"k2", ['b'], none⟩, ⟨"k1", ['c'], none⟩] (some ["k1"]) 1).filter
        (fun i => i.bias_indicator_key == "k2")
      = [⟨"k2", ['b'], none⟩] :=
  ⟨((limitIndicatorsByKey_per_key
        [⟨"k1", ['a'], none⟩, ⟨"k2", ['b'], none⟩, ⟨"k1", ['c'], none⟩] (some ["k1"]) 1).1
      "k1" (by decide)).trans (by decide),
   ((limitIndicatorsByKey_per_key
        [⟨"k1", ['a'], none⟩, ⟨"k2", ['b'], none⟩, ⟨"k1", ['c'], none⟩] (some ["k1"]) 1).2.1
      "k2" (by decide)).trans (by decide)⟩

/-- Every span produced by the scan loop starts at or after the scan position,
spans exactly the phrase length, and is a regex match. -/
theorem scanFrom_sound (text phrase : List Char) :
    ∀ fuel pos, ∀ sp ∈ scanFrom text phrase fuel pos,
      pos ≤ sp.start ∧ sp.«end» = sp.start + phrase.length
        ∧ matchesAt text phrase sp.start = true := by
  intro fuel
  induction fuel with
  | zero =>
    intro pos sp hsp
    simp [scanFrom] at hsp
  | succ fuel ih =>
    intro pos sp hsp
    rw [scanFrom] at hsp
    by_cases h1 : pos + phrase.length ≤ text.length
    · rw [if_pos h1] at hsp
      by_cases h2 : matchesAt text phrase pos
      · rw [if_pos h2] at hsp
        rcases List.mem_cons.mp hsp with rfl | htail
        · exact ⟨Nat.le_refl pos, rfl, h2⟩
        · obtain ⟨hle, he, hm⟩ := ih (pos + phrase.length) sp htail
          exact ⟨Nat.le_trans (Nat.le_add_right pos phrase.length) hle, he, hm⟩
      · rw [if_neg h2] at hsp
        obtain ⟨hle, he, hm⟩ := ih (pos + 1) sp hsp
        exact ⟨Nat.le_trans (Nat.le_succ pos) hle, he, hm⟩
    · rw [if_neg h1] at hsp
      cases hsp

/-- The spans produced by the scan loop are non-overlapping and left to
right. -/
theorem scanFrom_chain (text phrase : List Char) :
    ∀ fuel pos, (scanFrom text phrase fuel pos).Chain' (fun a b => a.«end» ≤ b.start) := by
  intro fuel
  induction fuel with
  | zero =>
    intro pos
    simp [scanFrom]
  | succ fuel ih =>
    intro pos
    rw [scanFrom]
    by_cases h1 : pos + phrase.length ≤ text.length
    · rw [if_pos h1]
      by_cases h2 : matchesAt text phrase pos
      · rw [if_pos h2]
        refine List.chain'_cons'.mpr ⟨?_, ih (pos + phrase.length)⟩
        intro y hy
        have hmem : y ∈ scanFrom text phrase fuel (pos + phrase.length) :=
          List.mem_of_mem_head? hy
        exact (scanFrom_sound text phrase fuel (pos + phrase.length) y hmem).1
      · rw [if_neg h2]
        exact ih (pos + 1)
    · rw [if_neg h1]
      exact List.chain'_nil

/-- Unpacking a successful regex match test at offset `i`. -/
theorem matchesAt_elim (text phrase : List Char) (i : Nat)
    (h : matchesAt text phrase i = true) :
    ((text.drop i).take phrase.length).map foldCode = phrase.map foldCode
    ∧ (∀ j, i = j + 1 → isWordChar (text.getD j default) = false)
    ∧ (i + phrase.length < text.length →
        isWordChar (text.getD (i + phrase.length) default) = false) := by
  unfold matchesAt at h
  simp only [Bool.and_eq_true] at h
  obtain ⟨⟨heq, hbefore⟩, hafter⟩ := h
  refine ⟨by simpa using heq, ?_, ?_⟩
  · intro j hij
    subst hij
    simpa using hbefore
  · intro hlt
    rw [if_pos hlt] at hafter
    simpa using hafter

/-- C5: every span returned by `findPhrasePositions` matches the phrase
case-insensitively (under the ASCII case-folding model of the regex `i` flag),
is bounded by non-word characters on both sides where neighbours exist, has
positive length equal to the phrase length, and the spans come in ascending,
non-overlapping left-to-right order; an empty or (ASCII-)whitespace-only
phrase yields the empty list. -/
theorem findPhrasePositions_spec (text phrase : List Char) :
    (trimEmpty phrase = true → findPhrasePositions text phrase = [])
    ∧ (∀ sp ∈ findPhrasePositions text phrase,
        sp.start < sp.«end»
        ∧ sp.«end» = sp.start + phrase.length
        ∧ ((text.drop sp.start).take phrase.length).map foldCode = phrase.map foldCode
        ∧ (∀ j, sp.start = j + 1 → isWordChar (text.getD j default) = false)
        ∧ (sp.«end» < text.length → isWordChar (text.getD sp.«end» default) = false))
    ∧ List.Chain' (fun a b => a.«end» ≤ b.start) (findPhrasePositions text phrase) := by
  refine ⟨?_, ?_, ?_⟩
  · intro h
    simp [findPhrasePositions, h]
  · intro sp hsp
    unfold findPhrasePositions at hsp
    by_cases htrim : trimEmpty phrase = true
    · rw [if_pos htrim] at hsp
      cases hsp
    · rw [if_neg htrim] at hsp
      have hlen : 1 ≤ phrase.length := by
        rcases phrase with _ | ⟨c, cs⟩
        · exact absurd rfl htrim
        · simp
      obtain ⟨hle, he, hm⟩ := scanFrom_sound text phrase (text.length + 1) 0 sp hsp
      obtain ⟨heq, hbefore, hafter⟩ := matchesAt_elim text phrase sp.start hm
      refine ⟨by omega, he, heq, hbefore, ?_⟩
      intro hend
      rw [he] at hend
      have := hafter hend
      rw [he]
      exact this
  · unfold findPhrasePositions
    by_cases htrim : trimEmpty phrase = true
    · rw [if_pos htrim]
      exact List.chain'_nil
    · rw [if_neg htrim]
      exact scanFrom_chain text phrase (text.length + 1) 0

theorem findPhrasePositions_spec_witness :
    (⟨10, 19⟩ : TextSpan) ∈ findPhrasePositions
        "The quick brown fox jumps".toList "brown fox".toList
    ∧ ((⟨10, 19⟩ : TextSpan).start < (⟨10, 19⟩ : TextSpan).«end»
        ∧ (⟨10, 19⟩ : TextSpan).«end» = (⟨10, 19⟩ : TextSpan).start
            + "brown fox".toList.length
        ∧ (("The quick brown fox jumps".toList.drop (⟨10, 19⟩ : TextSpan).start).take
              "brown fox".toList.length).map foldCode
            = "brown fox".toList.map foldCode
        ∧ (∀ j, (⟨10, 19⟩ : TextSpan).start = j + 1 →
            isWordChar ("The quick brown fox jumps".toList.getD j default) = false)
        ∧ ((⟨10, 19⟩ : TextSpan).«end» < "The quick brown fox jumps".toList.length →
            isWordChar ("The quick brown fox jumps".toList.getD
              (⟨10, 19⟩ : TextSpan).«end» default) = false)) :=
  ⟨by decide,
   (findPhrasePositions_spec "The quick brown fox jumps".toList "brown fox".toList).2.1
     ⟨10, 19⟩ (by decide)⟩

/-- Characters with the same folded code agree on the ASCII whitespace test. -/
theorem foldCode_space_eq (c1 c2 : Char) (h : foldCode c1 = foldCode c2) :
    (c1.toNat == 32 || (9 ≤ c1.toNat && c1.toNat ≤ 13))
      = (c2.toNat == 32 || (9 ≤ c2.toNat && c2.toNat ≤ 13)) := by
  unfold foldCode at h
  rw [Bool.eq_iff_iff]
  simp only [Bool.or_eq_true, Bool.and_eq_true, decide_eq_true_eq, beq_iff_eq]
  split_ifs at h <;> omega

/-- Phrases with the same folded code list agree on the whitespace-only
test. -/
theorem trimEmpty_congr : ∀ (p1 p2 : List Char), p1.map foldCode = p2.map foldCode →
    trimEmpty p1 = trimEmpty p2 := by
  intro p1
  induction p1 with
  | nil =>
    intro p2 h
    cases p2 with
    | nil => rfl
    | cons d q => simp at h
  | cons c p ih =>
    intro p2 h
    cases p2 with
    | nil => simp at h
    | cons d q =>
      simp only [List.map_cons, List.cons.injEq] at h
      unfold trimEmpty
      simp only [List.all_cons]
      rw [foldCode_space_eq c d h.1]
      have htail := ih q h.2
      unfold trimEmpty at htail
      rw [htail]

/-- Phrases with the same folded code list match at the same offsets. -/
theorem matchesAt_congr (text p1 p2 : List Char)
    (h : p1.map foldCode = p2.map foldCode) (i : Nat) :
    matchesAt text p1 i = matchesAt text p2 i := by
  have hlen : p1.length = p2.length := by
    have h2 := congrArg List.length h
    simpa using h2
  unfold matchesAt
  rw [h, hlen]

/-- Phrases with the same folded code list produce the same scan. -/
theorem scanFrom_congr (text p1 p2 : List Char)
    (h : p1.map foldCode = p2.map foldCode) :
    ∀ fuel pos, scanFrom text p1 fuel pos = scanFrom text p2 fuel pos := by
  have hlen : p1.length = p2.length := by
    have h2 := congrArg List.length h
    simpa using h2
  intro fuel
  induction fuel with
  | zero => intro pos; rfl
  | succ fuel ih =>
    intro pos
    rw [scanFrom, scanFrom, hlen, matchesAt_congr text p1 p2 h pos]
    by_cases h1 : pos + p2.length ≤ text.length
    · rw [if_pos h1, if_pos h1]
      by_cases h2 : matchesAt text p2 pos = true
      · rw [if_pos h2, if_pos h2, ih]
      · rw [if_neg h2, if_neg h2, ih]
    · rw [if_neg h1, if_neg h1]

/-- `findPhrasePositions` depends on the phrase only through its folded code
list (`toLowerCase`-keyed candidates share their match list). -/
theorem findPhrasePositions_congr (text p1 p2 : List Char)
    (h : p1.map foldCode = p2.map foldCode) :
    findPhrasePositions text p1 = findPhrasePositions text p2 := by
  unfold findPhrasePositions
  rw [trimEmpty_congr p1 p2 h]
  by_cases ht : trimEmpty p2 = true
  · rw [if_pos ht, if_pos ht]
  · rw [if_neg ht, if_neg ht]
    exact scanFrom_congr text p1 p2 h (text.length + 1) 0

/-- Bumping a key increments its own count. -/
theorem lookupCount_bump_self (counts : List (List Nat × Nat)) (key : List Nat) :
    lookupCount (bumpCount counts key) key = lookupCount counts key + 1 := by
  unfold bumpCount lookupCount
  rw [List.find?_cons_of_pos _ (by simp)]

/-- Bumping a key leaves other counts unchanged. -/
theorem lookupCount_bump_ne (counts : List (List Nat × Nat)) (k1 k2 : List Nat)
    (h : k1 ≠ k2) :
    lookupCount (bumpCount counts k1) k2 = lookupCount counts k2 := by
  unfold bumpCount lookupCount
  rw [List.find?_cons_of_neg _ (by simpa using h)]

/-- The prior count over the empty prefix is zero. -/
theorem noSpanPriorCount_zero (inds : List RawBiasIndicator) (key : List Nat) :
    noSpanPriorCount inds 0 key = 0 := rfl

/-- Unfolding the prior count one candidate at a time. -/
theorem noSpanPriorCount_cons (a : RawBiasIndicator) (inds : List RawBiasIndicator)
    (j : Nat) (key : List Nat) :
    noSpanPriorCount (a :: inds) (j + 1) key
      = (if (a.character_positions.isNone && a.detected_phrase.map foldCode == key)
          then 1 else 0) + noSpanPriorCount inds j key := by
  unfold noSpanPriorCount
  simp only [List.take_succ_cons, List.filter_cons]
  by_cases h : (a.character_positions.isNone && a.detected_phrase.map foldCode == key) = true
  · rw [if_pos h, if_pos h]
    simp [Nat.add_comm]
  · rw [if_neg h, if_neg h]
    simp

/-- Elementwise behaviour of the candidate-positioning loop, for an arbitrary
starting state of the occurrence-counter record: a candidate with a span keeps
it verbatim; a span-less candidate whose phrase has no match gets the fallback
span; a span-less candidate whose phrase has matches gets the match at index
`min (starting count + prior same-key span-less candidates) (matches - 1)`. -/
theorem addCharacterPositionsAux_getElem (text : List Char) :
    ∀ (inds : List RawBiasIndicator) (counts : List (List Nat × Nat)) (j : Nat)
      (hj : j < inds.length),
      (∀ sp, (inds[j]).character_positions = some sp →
        (addCharacterPositionsAux text inds counts)[j]?
          = some ⟨(inds[j]).bias_indicator_key, (inds[j]).detected_phrase, sp⟩)
      ∧ ((inds[j]).character_positions = none →
        (findPhrasePositions text (inds[j]).detected_phrase = [] →
          (addCharacterPositionsAux text inds counts)[j]?
            = some ⟨(inds[j]).bias_indicator_key, (inds[j]).detected_phrase,
                ⟨0, max 1 (inds[j]).detected_phrase.length⟩⟩)
        ∧ (findPhrasePositions text (inds[j]).detected_phrase ≠ [] →
          (addCharacterPositionsAux text inds counts)[j]?
            = some ⟨(inds[j]).bias_indicator_key, (inds[j]).detected_phrase,
                (findPhrasePositions text (inds[j]).detected_phrase).getD
                  (min (lookupCount counts ((inds[j]).detected_phrase.map foldCode)
                      + noSpanPriorCount inds j ((inds[j]).detected_phrase.map foldCode))
                    ((findPhrasePositions text (inds[j]).detected_phrase).length - 1))
                  ⟨0, 0⟩⟩)) := by
  intro inds
  induction inds with
  | nil =>
    intro counts j hj
    exact absurd hj (by simp)
  | cons a inds ih =>
    intro counts j hj
    cases j with
    | zero =>
      simp only [List.getElem_cons_zero]
      cases hcp : a.character_positions with
      | some sp0 =>
        constructor
        · intro sp hsp
          injection hsp with hsp
          subst hsp
          simp [addCharacterPositionsAux, hcp]
        · intro hnone
          cases hnone
      | none =>
        constructor
        · intro sp hsp
          cases hsp
        · intro _
          by_cases hps : (findPhrasePositions text a.detected_phrase).length > 0
          · constructor
            · intro hnil
              rw [hnil] at hps
              simp at hps
            · intro _
              simp only [addCharacterPositionsAux, hcp, if_pos hps, List.getElem?_cons_zero,
                noSpanPriorCount_zero, Nat.add_zero]
          · constructor
            · intro _
              simp only [addCharacterPositionsAux, hcp, if_neg hps, List.getElem?_cons_zero]
            · intro hne
              exact absurd (by simpa using hps) (by simpa using hne)
    | succ j' =>
      have hj' : j' < inds.length := by simpa using hj
      simp only [List.getElem_cons_succ]
      cases hcp : a.character_positions with
      | some sp0 =>
        have hstep : (addCharacterPositionsAux text (a :: inds) counts)[j' + 1]?
            = (addCharacterPositionsAux text inds counts)[j']? := by
          simp [addCharacterPositionsAux, hcp]
        rw [hstep]
        have hprior : noSpanPriorCount (a :: inds) (j' + 1)
            ((inds[j']).detected_phrase.map foldCode)
            = noSpanPriorCount inds j' ((inds[j']).detected_phrase.map foldCode) := by
          rw [noSpanPriorCount_cons]
          simp [hcp]
        rw [hprior]
        exact ih counts j' hj'
      | none =>
        by_cases hps : (findPhrasePositions text a.detected_phrase).length > 0
        · have hstep : (addCharacterPositionsAux text (a :: inds) counts)[j' + 1]?
              = (addCharacterPositionsAux text inds
                  (bumpCount counts (a.detected_phrase.map foldCode)))[j']? := by
            simp [addCharacterPositionsAux, hcp, if_pos hps]
          rw [hstep]
          by_cases hkey : a.detected_phrase.map foldCode
              = (inds[j']).detected_phrase.map foldCode
          · have hprior : noSpanPriorCount (a :: inds) (j' + 1)
                ((inds[j']).detected_phrase.map foldCode)
                = 1 + noSpanPriorCount inds j' ((inds[j']).detected_phrase.map foldCode) := by
              rw [noSpanPriorCount_cons]
              simp [hcp, hkey]
            rw [hprior]
            have hlook : lookupCount counts ((inds[j']).detected_phrase.map foldCode)
                + (1 + noSpanPriorCount inds j' ((inds[j']).detected_phrase.map foldCode))
                = lookupCount (bumpCount counts (a.detected_phrase.map foldCode))
                    ((inds[j']).detected_phrase.map foldCode)
                  + noSpanPriorCount inds j' ((inds[j']).detected_phrase.map foldCode) := by
              rw [hkey, lookupCount_bump_self]
              omega
            rw [hlook]
            exact ih (bumpCount counts (a.detected_phrase.map foldCode)) j' hj'
          · have hprior : noSpanPriorCount (a :: inds) (j' + 1)
                ((inds[j']).detected_phrase.map foldCode)
                = noSpanPriorCount inds j' ((inds[j']).detected_phrase.map foldCode) := by
              rw [noSpanPriorCount_cons]
              simp [hcp, hkey]
            rw [hprior]
            have hlook : lookupCount counts ((inds[j']).detected_phrase.map foldCode)
                = lookupCount (bumpCount counts (a.detected_phrase.map foldCode))
                    ((inds[j']).detected_phrase.map foldCode) :=
              (lookupCount_bump_ne counts _ _ hkey).symm
            rw [hlook]
            exact ih (bumpCount counts (a.detected_phrase.map foldCode)) j' hj'
        · have hpsnil : findPhrasePositions text a.detected_phrase = [] := by
            simpa using hps
          have hstep : (addCharacterPositionsAux text (a :: inds) counts)[j' + 1]?
              = (addCharacterPositionsAux text inds counts)[j']? := by
            simp [addCharacterPositionsAux, hcp, if_neg hps]
          rw [hstep]
          by_cases hkey : a.detected_phrase.map foldCode
              = (inds[j']).detected_phrase.map foldCode
          · refine ⟨(ih counts j' hj').1, fun hnone => ⟨((ih counts j' hj').2 hnone).1,
              fun hne => ?_⟩⟩
            exact absurd (findPhrasePositions_congr text _ _ hkey ▸ hpsnil) hne
          · have hprior : noSpanPriorCount (a :: inds) (j' + 1)
                ((inds[j']).detected_phrase.map foldCode)
                = noSpanPriorCount inds j' ((inds[j']).detected_phrase.map foldCode) := by
              rw [noSpanPriorCount_cons]
              simp [hcp, hkey]
            rw [hprior]
            exact ih counts j' hj'

/-- C7: in `addCharacterPositions`, a candidate that already carries a span
keeps it verbatim (and, the prior-candidate counter counting only span-less
candidates, does not advance it); the `i`-th span-less candidate of a given
case-folded phrase (`i` = 1 + the number of prior span-less candidates with
that folded phrase, counted across the whole batch) receives the locator's
match at index `min (i-1, k-1)` — the `min(i,k)`-th match, 1-based — when the
phrase has `k ≥ 1` matches, so once matches run out all later candidates of
that phrase share the final match; and with zero matches it receives the
fallback span `{0, max 1 phraseLength}`. -/
theorem addCharacterPositions_spec (text : List Char) (indicators : List RawBiasIndicator)
    (j : Nat) (hj : j < indicators.length) :
    (∀ sp, (indicators[j]).character_positions = some sp →
      (addCharacterPositions indicators text)[j]?
        = some ⟨(indicators[j]).bias_indicator_key, (indicators[j]).detected_phrase, sp⟩)
    ∧ ((indicators[j]).character_positions = none →
      (findPhrasePositions text (indicators[j]).detected_phrase = [] →
        (addCharacterPositions indicators text)[j]?
          = some ⟨(indicators[j]).bias_indicator_key, (indicators[j]).detected_phrase,
              ⟨0, max 1 (indicators[j]).detected_phrase.length⟩⟩)
      ∧ (∀ k, (findPhrasePositions text (indicators[j]).detected_phrase).length = k →
          1 ≤ k →
        (addCharacterPositions indicators text)[j]?
          = some ⟨(indicators[j]).bias_indicator_key, (indicators[j]).detected_phrase,
              (findPhrasePositions text (indicators[j]).detected_phrase).getD
                (min (noSpanPriorCount indicators j
                    ((indicators[j]).detected_phrase.map foldCode)) (k - 1))
                ⟨0, 0⟩⟩)) := by
  have h := addCharacterPositionsAux_getElem text indicators [] j hj
  unfold addCharacterPositions
  refine ⟨h.1, fun hnone => ⟨(h.2 hnone).1, fun k hk hk1 => ?_⟩⟩
  have hne : findPhrasePositions text (indicators[j]).detected_phrase ≠ [] := by
    intro hnil
    rw [hnil] at hk
    simp at hk
    omega
  have h2 := (h.2 hnone).2 hne
  rw [h2]
  have hzero : lookupCount ([] : List (List Nat × Nat))
      ((indicators[j]).detected_phrase.map foldCode) = 0 := rfl
  rw [hzero, Nat.zero_add, hk]

theorem addCharacterPositions_spec_witness :
    (addCharacterPositions
        [⟨"o", "the".toList, none⟩, ⟨"o", "the".toList, none⟩, ⟨"o", "the".toList, none⟩]
        "The cat sat on the mat and the dog ran".toList)[2]?
      = some ⟨"o", "the".toList, ⟨27, 30⟩⟩ :=
  (((addCharacterPositions_spec "The cat sat on the mat and the dog ran".toList
        [⟨"o", "the".toList, none⟩, ⟨"o", "the".toList, none⟩, ⟨"o", "the".toList, none⟩]
        2 (by decide)).2 (by rfl)).2 3 (by decide) (by decide)).trans (by decide)
